import Mathlib

/-!
Verification of ringmap: a bounded, insertion-ordered map with eviction of the
oldest entry.

A shallow embedding of `ringmap.go` (package `ringmap`).  A `RingMap` wraps an
ordered map of the library `github.com/elliotchance/orderedmap` together with a
capacity.  Keys and values are `interface{}` in Go; here they are type
parameters `K` (with decidable equality, the Go `==` on map keys) and `V`.

Go's `(value, ok)` result of `Get` is an `Option V`: `none` is `(nil, false)`
and `some v` is `(v, true)`.  A `*orderedmap.Element` that may be `nil` is an
`Option (Element K V)`.  `m.Front().Key` on a `nil` front is a nil pointer
dereference: the operation panics, which is the result `none` of `Set` and
`Put`.  Go's `int` is `Int` (no operation here can overflow it on a list that
fits in memory).
-/

namespace Ringmap

/-! ## The ordered map of the dependency -/

/-- Element of the ordered map as returned by `Front` and `Back`: the exported
fields `Key` and `Value` of `orderedmap.Element`. -/
structure Element (K V : Type) where
  Key : K
  Value : V
  deriving DecidableEq, Repr

/-- Modelled from the spec: the type `orderedmap.OrderedMap` of the dependency
`github.com/elliotchance/orderedmap` is not part of `src/`.  The spec's data
model is an order-preserving sequence of entries, oldest first, with a lookup
index from key to value that is consistent with that sequence; the state is
the list `ll` of entries, oldest first, and the index is the lookup in it. -/
structure OrderedMap (K V : Type) where
  ll : List (K × V)
  deriving DecidableEq, Repr

/-- Value of the first entry of the list whose key is `key`. -/
def lookupEntry {K V : Type} [DecidableEq K] (key : K) : List (K × V) → Option V
  | [] => none
  | (k, v) :: rest => if k = key then some v else lookupEntry key rest

/-- Overwrite, in place, the value of the first entry whose key is `key`. -/
def replaceEntry {K V : Type} [DecidableEq K] (key : K) (value : V) :
    List (K × V) → List (K × V)
  | [] => []
  | (k, v) :: rest =>
      if k = key then (k, value) :: rest else (k, v) :: replaceEntry key value rest

/-- Unlink the first entry whose key is `key`. -/
def removeEntry {K V : Type} [DecidableEq K] (key : K) : List (K × V) → List (K × V)
  | [] => []
  | (k, v) :: rest => if k = key then rest else (k, v) :: removeEntry key rest

namespace OrderedMap

variable {K V : Type} [DecidableEq K]

/-- Modelled from the spec: `orderedmap.NewOrderedMap` (dependency, not in
`src/`): the empty ordered map. -/
def NewOrderedMap : OrderedMap K V := ⟨[]⟩

/-- Modelled from the spec: `OrderedMap.Get` (dependency, not in `src/`):
lookup by key, `none` when the key is absent; no mutation. -/
def Get (m : OrderedMap K V) (key : K) : Option V := lookupEntry key m.ll

/-- Modelled from the spec: `OrderedMap.Set` (dependency, not in `src/`): an
existing key has its value replaced in place, position unchanged, result
`false`; a new key is appended as the newest entry, result `true`. -/
def Set (m : OrderedMap K V) (key : K) (value : V) : Bool × OrderedMap K V :=
  if (m.Get key).isSome then (false, ⟨replaceEntry key value m.ll⟩)
  else (true, ⟨m.ll ++ [(key, value)]⟩)

/-- Modelled from the spec: `OrderedMap.GetOrDefault` (dependency, not in
`src/`): as `Get`, with the default substituted when the key is absent. -/
def GetOrDefault (m : OrderedMap K V) (key : K) (defaultValue : V) : V :=
  match m.Get key with
  | some v => v
  | none => defaultValue

/-- Modelled from the spec: `OrderedMap.Len` (dependency, not in `src/`): the
current entry count. -/
def Len (m : OrderedMap K V) : Int := (m.ll.length : Int)

/-- Modelled from the spec: `OrderedMap.Keys` (dependency, not in `src/`): the
keys, oldest first. -/
def Keys (m : OrderedMap K V) : List K := m.ll.map Prod.fst

/-- Modelled from the spec: `OrderedMap.Delete` (dependency, not in `src/`):
removes the key if present and reports whether it was present; the other
entries keep their relative order. -/
def Delete (m : OrderedMap K V) (key : K) : Bool × OrderedMap K V :=
  if (m.Get key).isSome then (true, ⟨removeEntry key m.ll⟩) else (false, m)

/-- Modelled from the spec: `OrderedMap.Front` (dependency, not in `src/`):
the oldest entry, `none` (Go `nil`) when the map has no entries. -/
def Front (m : OrderedMap K V) : Option (Element K V) :=
  match m.ll.head? with
  | some (k, v) => some ⟨k, v⟩
  | none => none

/-- Modelled from the spec: `OrderedMap.Back` (dependency, not in `src/`):
the newest entry, `none` (Go `nil`) when the map has no entries. -/
def Back (m : OrderedMap K V) : Option (Element K V) :=
  match m.ll.getLast? with
  | some (k, v) => some ⟨k, v⟩
  | none => none

end OrderedMap

/-! ## `ringmap.go` -/

/-- The Go struct `RingMap`: the ordered map and the capacity. -/
structure RingMap (K V : Type) where
  orderedMap : OrderedMap K V
  capacity : Int
  deriving DecidableEq, Repr

/-- Go `NewRingMap`: an empty ordered map with the given capacity; the
capacity is stored as given, without any check. -/
def NewRingMap {K V : Type} (capacity : Int) : RingMap K V :=
  { orderedMap := OrderedMap.NewOrderedMap, capacity := capacity }

namespace RingMap

variable {K V : Type} [DecidableEq K]

/-- Go `RingMap.Get`. -/
def Get (m : RingMap K V) (key : K) : Option V := m.orderedMap.Get key

/-- Go `RingMap.GetOrDefault`. -/
def GetOrDefault (m : RingMap K V) (key : K) (defaultValue : V) : V :=
  m.orderedMap.GetOrDefault key defaultValue

/-- Go `RingMap.Len`. -/
def Len (m : RingMap K V) : Int := m.orderedMap.Len

/-- Go `RingMap.Capacity`. -/
def Capacity (m : RingMap K V) : Int := m.capacity

/-- Go `RingMap.IsFull`: `m.orderedMap.Len() == m.capacity`. -/
def IsFull (m : RingMap K V) : Bool := decide (m.orderedMap.Len = m.capacity)

/-- Go `RingMap.Keys`. -/
def Keys (m : RingMap K V) : List K := m.orderedMap.Keys

/-- Go `RingMap.Delete`: the result of the ordered map's `Delete` and the map
afterwards. -/
def Delete (m : RingMap K V) (key : K) : Bool × RingMap K V :=
  ((m.orderedMap.Delete key).1, { m with orderedMap := (m.orderedMap.Delete key).2 })

/-- Go `RingMap.Front`. -/
def Front (m : RingMap K V) : Option (Element K V) := m.orderedMap.Front

/-- Go `RingMap.Back`. -/
def Back (m : RingMap K V) : Option (Element K V) := m.orderedMap.Back

/-- The statement `m.Delete(m.Front().Key)` shared by `Set` and `Put`: `none`
when `Front()` is `nil` (the field access panics), otherwise the map after the
deletion. -/
def deleteFront (m : RingMap K V) : Option (RingMap K V) :=
  match m.Front with
  | none => none
  | some front => some (m.Delete front.Key).2

/-- Go `RingMap.Set`: when the key is new and the map is full, the front
element is deleted first; then the ordered map's `Set` runs; the result is
`!didExist`. -/
def Set (m : RingMap K V) (key : K) (value : V) : Option (Bool × RingMap K V) :=
  let didExist := (m.Get key).isSome
  let evicted : Option (RingMap K V) :=
    if !didExist then
      if m.IsFull then m.deleteFront else some m
    else some m
  match evicted with
  | none => none
  | some m1 =>
      some (!didExist, { m1 with orderedMap := (m1.orderedMap.Set key value).2 })

/-- Go `RingMap.Put`: when the key exists, the front element is deleted; then
the result of the ordered map's `Set` is returned. -/
def Put (m : RingMap K V) (key : K) (value : V) : Option (Bool × RingMap K V) :=
  let didExist := (m.Get key).isSome
  let evicted : Option (RingMap K V) := if didExist then m.deleteFront else some m
  match evicted with
  | none => none
  | some m1 =>
      some ((m1.orderedMap.Set key value).1,
        { m1 with orderedMap := (m1.orderedMap.Set key value).2 })

end RingMap

/-! ## Sequences of calls -/

/-- One mutating call on a ring map. -/
inductive Op (K V : Type) where
  | set (key : K) (value : V)
  | put (key : K) (value : V)
  | delete (key : K)
  deriving DecidableEq, Repr

variable {K V : Type} [DecidableEq K]

/-- The map after one call, `none` when the call panics. -/
def step (m : RingMap K V) : Op K V → Option (RingMap K V)
  | .set key value => (m.Set key value).map Prod.snd
  | .put key value => (m.Put key value).map Prod.snd
  | .delete key => some (m.Delete key).2

/-- Whether a call is a `Put`. -/
def Op.isPut {K V : Type} : Op K V → Bool
  | .put _ _ => true
  | _ => false

/-- The map after a sequence of calls, `none` when one of them panics. -/
def run (m : RingMap K V) : List (Op K V) → Option (RingMap K V)
  | [] => some m
  | op :: ops =>
      match step m op with
      | none => none
      | some m1 => run m1 ops

/-- A state is reachable with capacity `c` when some sequence of `Set`, `Put`
and `Delete` calls leads to it from `NewRingMap c`. -/
def Reachable (c : Int) (m : RingMap K V) : Prop :=
  ∃ ops : List (Op K V), run (NewRingMap c) ops = some m

/-- The representation invariant of the ordered map: no key occurs twice. -/
def WF (m : RingMap K V) : Prop := m.Keys.Nodup

instance instDecidableWF (m : RingMap K V) : Decidable (WF m) :=
  inferInstanceAs (Decidable m.Keys.Nodup)

/-- The calls `Set(k1, v1), ..., Set(kn, vn)` for a list of pairs. -/
def setOps {K V : Type} (kvs : List (K × V)) : List (Op K V) :=
  kvs.map (fun p => Op.set p.1 p.2)

/-! ## Concrete maps used to exercise the theorems -/

/-- A full map of capacity three, the state after `Set(1, true)`, `Set(2, true)`,
`Set(3, true)` on `NewRingMap(3)`. -/
def fullMap : RingMap Nat Bool := ⟨⟨[(1, true), (2, true), (3, true)]⟩, 3⟩

/-- A map of capacity three with two entries. -/
def roomyMap : RingMap Nat Bool := ⟨⟨[(1, true), (2, true)]⟩, 3⟩

/-- A map of capacity three with four entries, the state after `Put(4, true)`
on `fullMap`. -/
def overfullMap : RingMap Nat Bool :=
  ⟨⟨[(1, true), (2, true), (3, true), (4, true)]⟩, 3⟩

/-! ## Lemmas on the entry list -/

theorem lookupEntry_eq_none_iff (key : K) (l : List (K × V)) :
    lookupEntry key l = none ↔ key ∉ l.map Prod.fst := by
  induction l with
  | nil => simp [lookupEntry]
  | cons p rest ih =>
    obtain ⟨k, v⟩ := p
    by_cases h : k = key
    · simp [lookupEntry, h]
    · have h2 : ¬ key = k := fun e => h e.symm
      simp [lookupEntry, h, h2, ih]

theorem lookupEntry_isSome_iff (key : K) (l : List (K × V)) :
    (lookupEntry key l).isSome = true ↔ key ∈ l.map Prod.fst := by
  rw [← not_iff_not, ← lookupEntry_eq_none_iff]
  cases lookupEntry key l <;> simp

theorem keys_replaceEntry (key : K) (value : V) (l : List (K × V)) :
    (replaceEntry key value l).map Prod.fst = l.map Prod.fst := by
  induction l with
  | nil => rfl
  | cons p rest ih =>
    obtain ⟨k, v⟩ := p
    by_cases h : k = key <;> simp [replaceEntry, h, ih]

theorem length_replaceEntry (key : K) (value : V) (l : List (K × V)) :
    (replaceEntry key value l).length = l.length := by
  have := congrArg List.length (keys_replaceEntry key value l)
  simpa using this

theorem lookupEntry_replaceEntry_self (key : K) (value : V) (l : List (K × V))
    (h : key ∈ l.map Prod.fst) : lookupEntry key (replaceEntry key value l) = some value := by
  induction l with
  | nil => simp at h
  | cons p rest ih =>
    obtain ⟨k, v⟩ := p
    by_cases hk : k = key
    · simp [replaceEntry, lookupEntry, hk]
    · have h2 : key ∈ rest.map Prod.fst := by
        simp only [List.map_cons, List.mem_cons] at h
        rcases h with h | h
        · exact absurd h.symm hk
        · exact h
      simp [replaceEntry, lookupEntry, hk, ih h2]

theorem lookupEntry_replaceEntry_ne (key other : K) (value : V) (l : List (K × V))
    (h : other ≠ key) : lookupEntry other (replaceEntry key value l) = lookupEntry other l := by
  induction l with
  | nil => rfl
  | cons p rest ih =>
    obtain ⟨k, v⟩ := p
    by_cases hk : k = key
    · subst hk
      have : ¬ k = other := fun e => h e.symm
      simp [replaceEntry, lookupEntry, this]
    · by_cases ho : k = other
      · subst ho
        simp [replaceEntry, lookupEntry, hk]
      · simp [replaceEntry, lookupEntry, hk, ho, ih]

theorem keys_removeEntry (key : K) (l : List (K × V)) :
    (removeEntry key l).map Prod.fst = (l.map Prod.fst).erase key := by
  induction l with
  | nil => rfl
  | cons p rest ih =>
    obtain ⟨k, v⟩ := p
    by_cases h : k = key
    · simp [removeEntry, h]
    · simp [removeEntry, h, ih, List.erase_cons_tail]

theorem lookupEntry_removeEntry_ne (key other : K) (l : List (K × V))
    (h : other ≠ key) : lookupEntry other (removeEntry key l) = lookupEntry other l := by
  induction l with
  | nil => rfl
  | cons p rest ih =>
    obtain ⟨k, v⟩ := p
    by_cases hk : k = key
    · subst hk
      have : ¬ k = other := fun e => h e.symm
      simp [removeEntry, lookupEntry, this]
    · by_cases ho : k = other
      · subst ho
        simp [removeEntry, lookupEntry, hk]
      · simp [removeEntry, lookupEntry, hk, ho, ih]

theorem lookupEntry_removeEntry_self (key : K) (l : List (K × V))
    (h : (l.map Prod.fst).Nodup) : lookupEntry key (removeEntry key l) = none := by
  rw [lookupEntry_eq_none_iff, keys_removeEntry]
  exact fun hm => (List.Nodup.mem_erase_iff h).1 hm |>.1 rfl

theorem lookupEntry_append_self (key : K) (value : V) (l : List (K × V))
    (h : key ∉ l.map Prod.fst) : lookupEntry key (l ++ [(key, value)]) = some value := by
  induction l with
  | nil => simp [lookupEntry]
  | cons p rest ih =>
    obtain ⟨k, v⟩ := p
    simp only [List.map_cons, List.mem_cons, not_or] at h
    have hk : ¬ k = key := fun e => h.1 e.symm
    simp [lookupEntry, hk, ih h.2]

theorem lookupEntry_append_ne (key other : K) (value : V) (l : List (K × V))
    (h : other ≠ key) : lookupEntry other (l ++ [(key, value)]) = lookupEntry other l := by
  induction l with
  | nil =>
    have : ¬ key = other := fun e => h e.symm
    simp [lookupEntry, this]
  | cons p rest ih =>
    obtain ⟨k, v⟩ := p
    by_cases ho : k = other <;> simp [lookupEntry, ho, ih]

/-! ## The three cases of `Set`, the two cases of `Put`, and `Delete` -/

theorem isFull_iff {α β : Type} (m : RingMap α β) :
    m.IsFull = true ↔ (m.orderedMap.ll.length : Int) = m.capacity := by
  simp [RingMap.IsFull, OrderedMap.Len]

theorem deleteFront_cons (m : RingMap K V) (f : K) (fv : V) (rest : List (K × V))
    (hl : m.orderedMap.ll = (f, fv) :: rest) :
    m.deleteFront = some ⟨⟨rest⟩, m.capacity⟩ := by
  simp [RingMap.deleteFront, RingMap.Front, OrderedMap.Front, RingMap.Delete,
    OrderedMap.Delete, OrderedMap.Get, hl, lookupEntry, removeEntry]

theorem deleteFront_nil (m : RingMap K V) (hl : m.orderedMap.ll = []) :
    m.deleteFront = none := by
  simp [RingMap.deleteFront, RingMap.Front, OrderedMap.Front, hl]

theorem set_present (m : RingMap K V) (key : K) (value : V)
    (h : (m.Get key).isSome = true) :
    m.Set key value = some (false, ⟨⟨replaceEntry key value m.orderedMap.ll⟩, m.capacity⟩) := by
  have h2 : (m.orderedMap.Get key).isSome = true := h
  simp [RingMap.Set, OrderedMap.Set, h, h2]

theorem set_absent_not_full (m : RingMap K V) (key : K) (value : V)
    (h : m.Get key = none) (hf : m.IsFull = false) :
    m.Set key value = some (true, ⟨⟨m.orderedMap.ll ++ [(key, value)]⟩, m.capacity⟩) := by
  have h2 : m.orderedMap.Get key = none := h
  simp [RingMap.Set, OrderedMap.Set, h, h2, hf]

theorem set_absent_full (m : RingMap K V) (key : K) (value : V) (f : K) (fv : V)
    (rest : List (K × V)) (h : m.Get key = none) (hf : m.IsFull = true)
    (hl : m.orderedMap.ll = (f, fv) :: rest) :
    m.Set key value = some (true, ⟨⟨rest ++ [(key, value)]⟩, m.capacity⟩) := by
  have h2 : lookupEntry key rest = none := by
    have h3 : lookupEntry key m.orderedMap.ll = none := h
    rw [lookupEntry_eq_none_iff] at h3 ⊢
    rw [hl] at h3
    exact fun hm => h3 (List.mem_cons_of_mem _ hm)
  simp [RingMap.Set, OrderedMap.Set, h, hf, deleteFront_cons m f fv rest hl, OrderedMap.Get, h2]

theorem set_absent_full_empty (m : RingMap K V) (key : K) (value : V)
    (h : m.Get key = none) (hf : m.IsFull = true) (hl : m.orderedMap.ll = []) :
    m.Set key value = none := by
  simp [RingMap.Set, h, hf, deleteFront_nil m hl]

theorem put_absent (m : RingMap K V) (key : K) (value : V) (h : m.Get key = none) :
    m.Put key value = some (true, ⟨⟨m.orderedMap.ll ++ [(key, value)]⟩, m.capacity⟩) := by
  have h2 : m.orderedMap.Get key = none := h
  simp [RingMap.Put, OrderedMap.Set, h, h2]

theorem put_present (m : RingMap K V) (key : K) (value : V) (f : K) (fv : V)
    (rest : List (K × V)) (h : (m.Get key).isSome = true)
    (hl : m.orderedMap.ll = (f, fv) :: rest) :
    m.Put key value = some ((OrderedMap.Set ⟨rest⟩ key value).1,
      ⟨(OrderedMap.Set ⟨rest⟩ key value).2, m.capacity⟩) := by
  simp [RingMap.Put, h, deleteFront_cons m f fv rest hl]

theorem delete_present (m : RingMap K V) (key : K) (h : (m.Get key).isSome = true) :
    m.Delete key = (true, ⟨⟨removeEntry key m.orderedMap.ll⟩, m.capacity⟩) := by
  have h2 : (m.orderedMap.Get key).isSome = true := h
  simp [RingMap.Delete, OrderedMap.Delete, h2]

theorem delete_absent (m : RingMap K V) (key : K) (h : m.Get key = none) :
    m.Delete key = (false, m) := by
  have h2 : m.orderedMap.Get key = none := h
  simp [RingMap.Delete, OrderedMap.Delete, h2]

/-! ## The representation invariant is preserved -/

theorem wf_omSet (om : OrderedMap K V) (key : K) (value : V) (cap : Int)
    (h : WF (⟨om, cap⟩ : RingMap K V)) :
    WF (⟨(om.Set key value).2, cap⟩ : RingMap K V) := by
  have hnd : (om.ll.map Prod.fst).Nodup := h
  show (((om.Set key value).2).ll.map Prod.fst).Nodup
  cases hg : lookupEntry key om.ll with
  | some old =>
    simp only [OrderedMap.Set, OrderedMap.Get, hg, Option.isSome_some, if_true]
    rw [keys_replaceEntry]; exact hnd
  | none =>
    have hkn := (lookupEntry_eq_none_iff key _).1 hg
    simp only [OrderedMap.Set, OrderedMap.Get, hg, Option.isSome_none, Bool.false_eq_true,
      if_false, List.map_append, List.map_cons, List.map_nil]
    exact List.Nodup.append hnd (List.nodup_singleton key) (by simpa using hkn)

theorem wf_delete (m : RingMap K V) (key : K) (h : WF m) : WF (m.Delete key).2 := by
  have hnd : (m.orderedMap.ll.map Prod.fst).Nodup := h
  show (((m.orderedMap.Delete key).2).ll.map Prod.fst).Nodup
  unfold OrderedMap.Delete
  split
  · show ((removeEntry key m.orderedMap.ll).map Prod.fst).Nodup
    rw [keys_removeEntry]; exact hnd.erase key
  · exact hnd

theorem wf_deleteFront (m m1 : RingMap K V) (h : WF m) (hd : m.deleteFront = some m1) :
    WF m1 := by
  unfold RingMap.deleteFront at hd
  split at hd
  · cases hd
  · cases hd; exact wf_delete m _ h

theorem wf_step (m m' : RingMap K V) (op : Op K V) (h : WF m) (hs : step m op = some m') :
    WF m' := by
  cases op with
  | set key value =>
    simp only [step, RingMap.Set, Option.map_eq_some'] at hs
    obtain ⟨⟨b, m2⟩, hs, rfl⟩ := hs
    split at hs
    · cases hs
    · rename_i m1 hev
      cases hs
      have h1 : WF m1 := by
        split at hev
        · split at hev
          · exact wf_deleteFront m m1 h hev
          · cases hev; exact h
        · cases hev; exact h
      exact wf_omSet m1.orderedMap key value m1.capacity h1
  | put key value =>
    simp only [step, RingMap.Put, Option.map_eq_some'] at hs
    obtain ⟨⟨b, m2⟩, hs, rfl⟩ := hs
    split at hs
    · cases hs
    · rename_i m1 hev
      cases hs
      have h1 : WF m1 := by
        split at hev
        · exact wf_deleteFront m m1 h hev
        · cases hev; exact h
      exact wf_omSet m1.orderedMap key value m1.capacity h1
  | delete key =>
    simp only [step, Option.some.injEq] at hs
    subst hs
    exact wf_delete m key h

theorem wf_run (ops : List (Op K V)) (m m' : RingMap K V) (h : WF m)
    (hr : run m ops = some m') : WF m' := by
  induction ops generalizing m with
  | nil => simp only [run, Option.some.injEq] at hr; subst hr; exact h
  | cons op ops ih =>
    simp only [run] at hr
    split at hr
    · cases hr
    · rename_i m1 hs
      exact ih m1 (wf_step m m1 op h hs) hr

theorem wf_new {α β : Type} (c : Int) : WF (NewRingMap c : RingMap α β) := by
  simp [WF, NewRingMap, RingMap.Keys, OrderedMap.Keys, OrderedMap.NewOrderedMap]

/-! ## A run of `Set` calls with pairwise distinct new keys -/

theorem run_setOps_fresh (n : Nat) (hn : 1 ≤ n) (kvs : List (K × V)) :
    ∀ m : RingMap K V, m.capacity = (n : Int) → m.orderedMap.ll.length ≤ n →
      (∀ k, k ∈ kvs.map Prod.fst → k ∉ m.Keys) → (kvs.map Prod.fst).Nodup →
      ∃ m' : RingMap K V, run m (setOps kvs) = some m' ∧ m'.capacity = (n : Int) ∧
        m'.Keys = (m.Keys ++ kvs.map Prod.fst).drop (m.Keys.length + kvs.length - n) := by
  induction kvs with
  | nil =>
    intro m hcap hlen _ _
    refine ⟨m, rfl, hcap, ?_⟩
    have : m.Keys.length + ([] : List (K × V)).length - n = 0 := by
      simp only [RingMap.Keys, OrderedMap.Keys, List.length_map, List.length_nil]; omega
    rw [this]
    simp
  | cons p rest ih =>
    obtain ⟨k, v⟩ := p
    intro m hcap hlen hdis hnd
    simp only [List.map_cons, List.nodup_cons] at hnd
    have hk : m.Get k = none :=
      (lookupEntry_eq_none_iff k _).2 (hdis k (by simp))
    have hrest : ∀ k', k' ∈ rest.map Prod.fst → k' ∉ m.Keys ∧ k' ≠ k := by
      intro k' hk'
      refine ⟨hdis k' (by simp only [List.map_cons, List.mem_cons]; exact Or.inr hk'), ?_⟩
      rintro rfl
      exact hnd.1 hk'
    obtain ⟨⟨ll⟩, cap⟩ := m
    simp only at hcap hlen
    subst hcap
    cases hf : (⟨⟨ll⟩, (n : Int)⟩ : RingMap K V).IsFull with
    | false =>
      have hlt : ll.length < n := by
        have : ¬ ((ll.length : Int) = (n : Int)) := by
          intro e
          have := (isFull_iff (⟨⟨ll⟩, (n : Int)⟩ : RingMap K V)).2 e
          rw [hf] at this; cases this
        omega
      have hset := set_absent_not_full _ k v hk hf
      obtain ⟨m', hrun, hcap', hkeys⟩ := ih ⟨⟨ll ++ [(k, v)]⟩, (n : Int)⟩ rfl
        (by simp; omega)
        (by
          intro k' hk'
          have := hrest k' hk'
          simp only [RingMap.Keys, OrderedMap.Keys, List.map_append, List.map_cons,
            List.map_nil, List.mem_append, List.mem_singleton, not_or] at this ⊢
          exact this)
        hnd.2
      refine ⟨m', ?_, hcap', ?_⟩
      · simp only [setOps, List.map_cons, run, step, hset, Option.map_some']
        exact hrun
      · rw [hkeys]
        simp only [RingMap.Keys, OrderedMap.Keys, List.map_append, List.map_cons, List.map_nil,
          List.length_append, List.length_map, List.length_cons, List.length_nil,
          List.append_assoc, List.singleton_append]
        congr 1
        omega
    | true =>
      have hlen2 : (ll.length : Int) = (n : Int) := (isFull_iff _).1 hf
      cases ll with
      | nil => simp at hlen2; omega
      | cons q tl =>
        obtain ⟨f, fv⟩ := q
        have hset := set_absent_full _ k v f fv tl hk hf rfl
        have hl : tl.length + 1 = n := by
          simp only [List.length_cons] at hlen2; omega
        obtain ⟨m', hrun, hcap', hkeys⟩ := ih ⟨⟨tl ++ [(k, v)]⟩, (n : Int)⟩ rfl
          (by simp; omega)
          (by
            intro k' hk'
            have := hrest k' hk'
            simp only [RingMap.Keys, OrderedMap.Keys, List.map_append, List.map_cons,
              List.map_nil, List.mem_append, List.mem_cons, List.not_mem_nil, or_false,
              not_or] at this ⊢
            exact ⟨this.1.2, this.2⟩)
          hnd.2
        refine ⟨m', ?_, hcap', ?_⟩
        · simp only [setOps, List.map_cons, run, step, hset, Option.map_some']
          exact hrun
        · rw [hkeys]
          simp only [RingMap.Keys, OrderedMap.Keys, List.map_append, List.map_cons,
            List.map_nil, List.length_append, List.length_map, List.length_cons,
            List.length_nil, List.append_assoc, List.singleton_append, List.cons_append]
          have e1 : tl.length + (0 + 1) + rest.length - n = rest.length := by omega
          have e2 : tl.length + 1 + (rest.length + 1) - n = rest.length + 1 := by omega
          rw [e1, e2, List.drop_succ_cons, List.nil_append]

/-! ## Further lemmas: capacity, totality, `Delete` followed by a lookup -/

theorem lookupEntry_of_mem (key : K) (value : V) (l : List (K × V))
    (hnd : (l.map Prod.fst).Nodup) (hm : (key, value) ∈ l) :
    lookupEntry key l = some value := by
  induction l with
  | nil => simp at hm
  | cons p rest ih =>
    obtain ⟨k, v⟩ := p
    simp only [List.map_cons, List.nodup_cons] at hnd
    simp only [List.mem_cons, Prod.mk.injEq] at hm
    rcases hm with ⟨rfl, rfl⟩ | hm
    · simp [lookupEntry]
    · have hk : ¬ k = key := by
        rintro rfl
        exact hnd.1 (List.mem_map.2 ⟨(k, value), hm, rfl⟩)
      simp [lookupEntry, hk, ih hnd.2 hm]

theorem mem_of_lookupEntry (key : K) (value : V) (l : List (K × V))
    (h : lookupEntry key l = some value) : (key, value) ∈ l := by
  induction l with
  | nil => simp [lookupEntry] at h
  | cons p rest ih =>
    obtain ⟨k, v⟩ := p
    by_cases hk : k = key
    · subst hk
      simp only [lookupEntry, if_true, Option.some.injEq] at h
      subst h
      exact List.mem_cons_self _ _
    · simp only [lookupEntry, hk, if_false] at h
      exact List.mem_cons_of_mem _ (ih h)

theorem capacity_delete (m : RingMap K V) (key : K) :
    (m.Delete key).2.capacity = m.capacity := rfl

theorem capacity_deleteFront (m m1 : RingMap K V) (hd : m.deleteFront = some m1) :
    m1.capacity = m.capacity := by
  unfold RingMap.deleteFront at hd
  split at hd
  · cases hd
  · cases hd; rfl

theorem capacity_step (m m' : RingMap K V) (op : Op K V) (hs : step m op = some m') :
    m'.capacity = m.capacity := by
  cases op with
  | set key value =>
    simp only [step, RingMap.Set, Option.map_eq_some'] at hs
    obtain ⟨⟨b, m2⟩, hs, rfl⟩ := hs
    split at hs
    · cases hs
    · rename_i m1 hev
      cases hs
      show m1.capacity = m.capacity
      split at hev
      · split at hev
        · exact capacity_deleteFront m m1 hev
        · cases hev; rfl
      · cases hev; rfl
  | put key value =>
    simp only [step, RingMap.Put, Option.map_eq_some'] at hs
    obtain ⟨⟨b, m2⟩, hs, rfl⟩ := hs
    split at hs
    · cases hs
    · rename_i m1 hev
      cases hs
      show m1.capacity = m.capacity
      split at hev
      · exact capacity_deleteFront m m1 hev
      · cases hev; rfl
  | delete key =>
    simp only [step, Option.some.injEq] at hs
    subst hs
    rfl

theorem capacity_run (ops : List (Op K V)) (m m' : RingMap K V)
    (hr : run m ops = some m') : m'.capacity = m.capacity := by
  induction ops generalizing m with
  | nil => simp only [run, Option.some.injEq] at hr; subst hr; rfl
  | cons op ops ih =>
    simp only [run] at hr
    split at hr
    · cases hr
    · rename_i m1 hs
      rw [ih m1 hr, capacity_step m m1 op hs]

theorem front_isSome_of_ne_nil {α β : Type} (m : RingMap α β) (h : m.orderedMap.ll ≠ []) :
    ∃ e, m.Front = some e := by
  obtain ⟨⟨ll⟩, cap⟩ := m
  cases ll with
  | nil => exact absurd rfl h
  | cons p rest => exact ⟨⟨p.1, p.2⟩, rfl⟩

theorem ne_nil_of_present (m : RingMap K V) (key : K) (h : (m.Get key).isSome = true) :
    m.orderedMap.ll ≠ [] := by
  intro e
  have : m.Get key = none := by simp [RingMap.Get, OrderedMap.Get, e, lookupEntry]
  rw [this] at h; cases h

theorem ne_nil_of_full {α β : Type} (m : RingMap α β) (hcap : 1 ≤ m.capacity)
    (hf : m.IsFull = true) :
    m.orderedMap.ll ≠ [] := by
  intro e
  rw [isFull_iff, e] at hf
  simp at hf
  omega

theorem set_isSome (m : RingMap K V) (key : K) (value : V) (hcap : 1 ≤ m.capacity) :
    ∃ r, m.Set key value = some r := by
  cases hg : m.Get key with
  | some old => exact ⟨_, set_present m key value (by simp [hg])⟩
  | none =>
    cases hf : m.IsFull with
    | false => exact ⟨_, set_absent_not_full m key value hg hf⟩
    | true =>
      have hne := ne_nil_of_full m hcap hf
      cases hl : m.orderedMap.ll with
      | nil => exact absurd hl hne
      | cons p rest => exact ⟨_, set_absent_full m key value p.1 p.2 rest hg hf hl⟩

theorem put_isSome (m : RingMap K V) (key : K) (value : V) :
    ∃ r, m.Put key value = some r := by
  cases hg : m.Get key with
  | none => exact ⟨_, put_absent m key value hg⟩
  | some old =>
    have hs : (m.Get key).isSome = true := by simp [hg]
    have hne := ne_nil_of_present m key hs
    cases hl : m.orderedMap.ll with
    | nil => exact absurd hl hne
    | cons p rest => exact ⟨_, put_present m key value p.1 p.2 rest hs hl⟩

theorem get_delete_self (m : RingMap K V) (key : K) (hwf : WF m) :
    (m.Delete key).2.Get key = none := by
  cases hg : m.Get key with
  | some old =>
    rw [delete_present m key (by simp [hg])]
    exact lookupEntry_removeEntry_self key _ hwf
  | none =>
    rw [delete_absent m key hg]; exact hg

theorem keys_delete (m : RingMap K V) (key : K) :
    (m.Delete key).2.Keys = m.Keys.erase key := by
  cases hg : m.Get key with
  | some old =>
    rw [delete_present m key (by simp [hg])]
    exact keys_removeEntry key _
  | none =>
    rw [delete_absent m key hg]
    have hkn : key ∉ m.Keys := (lookupEntry_eq_none_iff key _).1 hg
    exact (List.erase_of_not_mem hkn).symm

theorem erase_eq_filter_of_nodup (key : K) (l : List K) (h : l.Nodup) :
    l.erase key = l.filter (fun x => decide (x ≠ key)) := by
  rw [List.Nodup.erase_eq_filter h]
  refine List.filter_congr ?_
  intro x _
  by_cases hx : x = key <;> simp [hx]

/-! ## The capacity bound along runs of `Set` and `Delete` -/

theorem length_removeEntry_le (key : K) (l : List (K × V)) :
    (removeEntry key l).length ≤ l.length := by
  induction l with
  | nil => simp [removeEntry]
  | cons p rest ih =>
    obtain ⟨k, v⟩ := p
    by_cases h : k = key
    · simp [removeEntry, h]
    · simp only [removeEntry, h, if_false, List.length_cons]
      omega

theorem len_delete_le (m : RingMap K V) (key : K) : (m.Delete key).2.Len ≤ m.Len := by
  cases hg : m.Get key with
  | some old =>
    rw [delete_present m key (by simp [hg])]
    simp only [RingMap.Len, OrderedMap.Len]
    exact Int.ofNat_le.2 (length_removeEntry_le key _)
  | none => rw [delete_absent m key hg]

theorem len_le_set (m m' : RingMap K V) (key : K) (value : V) (b : Bool)
    (hcap : 1 ≤ m.capacity) (hle : m.Len ≤ m.capacity)
    (hs : m.Set key value = some (b, m')) : m'.Len ≤ m'.capacity := by
  simp only [RingMap.Len, OrderedMap.Len] at hle ⊢
  cases hg : m.Get key with
  | some old =>
    rw [set_present m key value (by simp [hg])] at hs
    cases hs
    simp only [length_replaceEntry]
    exact hle
  | none =>
    cases hf : m.IsFull with
    | false =>
      rw [set_absent_not_full m key value hg hf] at hs
      cases hs
      have hne : ¬ ((m.orderedMap.ll.length : Int) = m.capacity) := by
        intro e
        have := (isFull_iff m).2 e
        rw [hf] at this; cases this
      simp only [List.length_append, List.length_singleton, Nat.cast_add, Nat.cast_one]
      omega
    | true =>
      have hne := ne_nil_of_full m hcap hf
      cases hl : m.orderedMap.ll with
      | nil => exact absurd hl hne
      | cons p rest =>
        rw [set_absent_full m key value p.1 p.2 rest hg hf hl] at hs
        cases hs
        rw [hl] at hle
        simp only [List.length_cons, List.length_append, List.length_singleton] at hle ⊢
        exact hle

theorem run_set_delete_bounded (ops : List (Op K V)) :
    ∀ m : RingMap K V, 1 ≤ m.capacity → m.Len ≤ m.capacity →
      (∀ op, op ∈ ops → op.isPut = false) →
      ∃ m' : RingMap K V, run m ops = some m' ∧ m'.capacity = m.capacity ∧
        m'.Len ≤ m'.capacity := by
  induction ops with
  | nil =>
    intro m _ hle _
    exact ⟨m, rfl, rfl, hle⟩
  | cons op ops ih =>
    intro m hcap hle hnp
    have hrest : ∀ o, o ∈ ops → o.isPut = false :=
      fun o ho => hnp o (List.mem_cons_of_mem _ ho)
    have hop : op.isPut = false := hnp op (List.mem_cons_self _ _)
    cases op with
    | put key value => simp [Op.isPut] at hop
    | set key value =>
      obtain ⟨⟨b, m1⟩, hs⟩ := set_isSome m key value hcap
      have hstep : step m (Op.set key value) = some m1 := by simp [step, hs]
      have hc1 : m1.capacity = m.capacity := capacity_step m m1 _ hstep
      obtain ⟨m', hrun, hc', hle'⟩ := ih m1 (by rw [hc1]; exact hcap)
        (len_le_set m m1 key value b hcap hle hs) hrest
      exact ⟨m', by simp only [run, hstep]; exact hrun, by rw [hc', hc1], hle'⟩
    | delete key =>
      have hle1 : (m.Delete key).2.Len ≤ (m.Delete key).2.capacity :=
        le_trans (len_delete_le m key) hle
      obtain ⟨m', hrun, hc', hle'⟩ := ih (m.Delete key).2 hcap hle1 hrest
      exact ⟨m', by simp only [run, step]; exact hrun, hc', hle'⟩

/-! ## The claims -/

/-- C1: two `Put` calls of new keys on `NewRingMap(1)` return a map with two
entries and capacity one, so the length exceeds the capacity. -/
theorem C1_put_exceeds_capacity :
    ∃ m : RingMap Nat Bool,
      run (NewRingMap 1) [Op.put 1 true, Op.put 2 true] = some m ∧
      m.Keys = [1, 2] ∧ m.Len = 2 ∧ m.Capacity = 1 ∧ ¬ (m.Len ≤ m.Capacity) :=
  ⟨⟨⟨[(1, true), (2, true)]⟩, 1⟩, by decide, by decide, by decide, by decide, by decide⟩

/-- C2: on a map with capacity at least one whose length equals its capacity,
`Set` of an absent key returns true, keeps the length at the capacity, removes
exactly the previous front key (no longer found, every other previous key still
found with its old value), and the new keys are the old keys without the first
one followed by the new key. -/
theorem C2_set_new_key_at_capacity (m : RingMap K V) (k : K) (v : V)
    (hcap : 1 ≤ m.Capacity) (hfull : m.Len = m.Capacity) (hk : m.Get k = none)
    (hwf : WF m) :
    ∃ (f : Element K V) (rest : List K) (m' : RingMap K V),
      m.Front = some f ∧ m.Keys = f.Key :: rest ∧
      m.Set k v = some (true, m') ∧
      m'.Len = m.Capacity ∧ m'.Capacity = m.Capacity ∧
      m'.Get f.Key = none ∧
      (∀ k' v', k' ≠ f.Key → m.Get k' = some v' → m'.Get k' = some v') ∧
      m'.Keys = rest ++ [k] := by
  obtain ⟨⟨ll⟩, cap⟩ := m
  simp only [RingMap.Capacity, RingMap.Len, OrderedMap.Len] at hcap hfull
  cases ll with
  | nil => simp at hfull; omega
  | cons p rest =>
    obtain ⟨f, fv⟩ := p
    have hfullb : (⟨⟨(f, fv) :: rest⟩, cap⟩ : RingMap K V).IsFull = true := by
      rw [isFull_iff]; exact hfull
    have hkn : k ∉ ((f, fv) :: rest).map Prod.fst := (lookupEntry_eq_none_iff k _).1 hk
    have hnd : (((f, fv) :: rest).map Prod.fst).Nodup := hwf
    simp only [List.map_cons, List.mem_cons, not_or, List.nodup_cons] at hkn hnd
    refine ⟨⟨f, fv⟩, rest.map Prod.fst, ⟨⟨rest ++ [(k, v)]⟩, cap⟩, rfl, rfl,
      set_absent_full _ k v f fv rest hk hfullb rfl, ?_, rfl, ?_, ?_, ?_⟩
    · simp only [RingMap.Len, OrderedMap.Len, RingMap.Capacity] at hfull ⊢
      rw [← hfull]; simp
    · show lookupEntry f (rest ++ [(k, v)]) = none
      rw [lookupEntry_eq_none_iff]
      simp only [List.map_append, List.map_cons, List.map_nil, List.mem_append,
        List.mem_singleton, not_or]
      exact ⟨hnd.1, fun e => hkn.1 e.symm⟩
    · intro k' v' hne hget
      have hk'k : k' ≠ k := by
        rintro rfl
        rw [hk] at hget; cases hget
      show lookupEntry k' (rest ++ [(k, v)]) = some v'
      rw [lookupEntry_append_ne k k' v rest hk'k]
      have : lookupEntry k' ((f, fv) :: rest) = some v' := hget
      have hfk : ¬ f = k' := fun e => hne e.symm
      simpa [lookupEntry, hfk] using this
    · simp [RingMap.Keys, OrderedMap.Keys]

/-- C2, at a concrete map: the hypotheses of `C2_set_new_key_at_capacity` hold there and so does its conclusion. -/
theorem C2_set_new_key_at_capacity_witness :
    (1 ≤ fullMap.Capacity ∧ fullMap.Len = fullMap.Capacity ∧ fullMap.Get 4 = none ∧
      WF fullMap) ∧
    ∃ (f : Element Nat Bool) (rest : List Nat) (m' : RingMap Nat Bool),
      fullMap.Front = some f ∧ fullMap.Keys = f.Key :: rest ∧
      fullMap.Set 4 false = some (true, m') ∧
      m'.Len = fullMap.Capacity ∧ m'.Capacity = fullMap.Capacity ∧
      m'.Get f.Key = none ∧
      (∀ k' v', k' ≠ f.Key → fullMap.Get k' = some v' → m'.Get k' = some v') ∧
      m'.Keys = rest ++ [4] :=
  ⟨⟨by decide, by decide, by decide, by decide⟩,
    C2_set_new_key_at_capacity fullMap 4 false (by decide) (by decide) (by decide) (by decide)⟩

/-- C3: `Set` of a key that is already present returns false, leaves the keys
and the length unchanged, makes `Get` of the key return the new value, and
leaves the value of every other key unchanged. -/
theorem C3_set_existing_key (m : RingMap K V) (k : K) (v : V)
    (hk : (m.Get k).isSome = true) :
    ∃ m' : RingMap K V,
      m.Set k v = some (false, m') ∧
      m'.Keys = m.Keys ∧ m'.Len = m.Len ∧
      m'.Get k = some v ∧
      (∀ k', k' ≠ k → m'.Get k' = m.Get k') := by
  refine ⟨_, set_present m k v hk, ?_, ?_, ?_, ?_⟩
  · exact keys_replaceEntry k v _
  · simp [RingMap.Len, OrderedMap.Len, length_replaceEntry]
  · exact lookupEntry_replaceEntry_self k v _ ((lookupEntry_isSome_iff k _).1 hk)
  · intro k' hne
    exact lookupEntry_replaceEntry_ne k k' v _ hne

/-- C3, at a concrete map: the hypotheses of `C3_set_existing_key` hold there and so does its conclusion. -/
theorem C3_set_existing_key_witness :
    (roomyMap.Get 1).isSome = true ∧
    ∃ m' : RingMap Nat Bool,
      roomyMap.Set 1 false = some (false, m') ∧
      m'.Keys = roomyMap.Keys ∧ m'.Len = roomyMap.Len ∧
      m'.Get 1 = some false ∧
      (∀ k', k' ≠ 1 → m'.Get k' = roomyMap.Get k') :=
  ⟨by decide, C3_set_existing_key roomyMap 1 false (by decide)⟩

/-- C4: for a capacity of at least one, setting pairwise distinct keys in order
on a new map returns a map whose keys are the last `min n c` keys of the list
in insertion order, whose length is `min n c`, and which is full exactly when
the number of keys is at least the capacity. -/
theorem C4_set_distinct_keys (c : Int) (hc : 1 ≤ c) (kvs : List (K × V))
    (hd : (kvs.map Prod.fst).Nodup) :
    ∃ m : RingMap K V,
      run (NewRingMap c) (setOps kvs) = some m ∧
      m.Keys = (kvs.map Prod.fst).drop (kvs.length - min kvs.length c.toNat) ∧
      m.Len = min (kvs.length : Int) c ∧
      (m.IsFull = true ↔ c ≤ (kvs.length : Int)) := by
  have hcn : ((c.toNat : Nat) : Int) = c := Int.toNat_of_nonneg (by omega)
  have hn : 1 ≤ c.toNat := by omega
  obtain ⟨m, hrun, hcap, hkeys⟩ := run_setOps_fresh c.toNat hn kvs (NewRingMap c)
    (by simp [NewRingMap, hcn]) (by simp [NewRingMap, OrderedMap.NewOrderedMap])
    (by simp [NewRingMap, OrderedMap.NewOrderedMap, RingMap.Keys, OrderedMap.Keys]) hd
  have hkeys2 : m.Keys = (kvs.map Prod.fst).drop (kvs.length - min kvs.length c.toNat) := by
    rw [hkeys]
    simp only [NewRingMap, OrderedMap.NewOrderedMap, RingMap.Keys, OrderedMap.Keys,
      List.map_nil, List.nil_append, List.length_nil, Nat.zero_add]
    congr 1
    omega
  have hlen : m.orderedMap.ll.length = min kvs.length c.toNat := by
    have := congrArg List.length hkeys2
    simp only [RingMap.Keys, OrderedMap.Keys, List.length_map, List.length_drop] at this
    omega
  refine ⟨m, hrun, hkeys2, ?_, ?_⟩
  · simp only [RingMap.Len, OrderedMap.Len, hlen]
    omega
  · rw [isFull_iff, hcap, hlen]
    omega

/-- C4, at a concrete map: the hypotheses of `C4_set_distinct_keys` hold there and so does its conclusion. -/
theorem C4_set_distinct_keys_witness :
    ((1 : Int) ≤ 2 ∧ (([(1, true), (2, false), (3, true)] : List (Nat × Bool)).map Prod.fst).Nodup) ∧
    ∃ m : RingMap Nat Bool,
      run (NewRingMap 2) (setOps [(1, true), (2, false), (3, true)]) = some m ∧
      m.Keys = (([(1, true), (2, false), (3, true)] : List (Nat × Bool)).map Prod.fst).drop
        (([(1, true), (2, false), (3, true)] : List (Nat × Bool)).length -
          min ([(1, true), (2, false), (3, true)] : List (Nat × Bool)).length (2 : Int).toNat) ∧
      m.Len = min ((([(1, true), (2, false), (3, true)] : List (Nat × Bool)).length : Nat) : Int) 2 ∧
      (m.IsFull = true ↔
        (2 : Int) ≤ ((([(1, true), (2, false), (3, true)] : List (Nat × Bool)).length : Nat) : Int)) :=
  ⟨⟨by decide, by decide⟩,
    C4_set_distinct_keys 2 (by decide) [(1, true), (2, false), (3, true)] (by decide)⟩

/-- C5: on a map whose length is below its capacity, `Set` of an absent key
returns true, evicts nothing (every value found before is found unchanged), and
the new keys are the old keys with the new key appended, so the length grows by
exactly one. -/
theorem C5_set_new_key_below_capacity (m : RingMap K V) (k : K) (v : V)
    (hlen : m.Len < m.Capacity) (hk : m.Get k = none) :
    ∃ m' : RingMap K V,
      m.Set k v = some (true, m') ∧
      m'.Keys = m.Keys ++ [k] ∧ m'.Len = m.Len + 1 ∧
      (∀ k', k' ≠ k → m'.Get k' = m.Get k') := by
  have hf : m.IsFull = false := by
    cases h : m.IsFull
    · rfl
    · rw [isFull_iff] at h
      simp only [RingMap.Len, OrderedMap.Len, RingMap.Capacity] at hlen
      omega
  refine ⟨_, set_absent_not_full m k v hk hf, ?_, ?_, ?_⟩
  · simp [RingMap.Keys, OrderedMap.Keys]
  · simp [RingMap.Len, OrderedMap.Len]
  · intro k' hne
    exact lookupEntry_append_ne k k' v _ hne

/-- C5, at a concrete map: the hypotheses of `C5_set_new_key_below_capacity` hold there and so does its conclusion. -/
theorem C5_set_new_key_below_capacity_witness :
    (roomyMap.Len < roomyMap.Capacity ∧ roomyMap.Get 7 = none) ∧
    ∃ m' : RingMap Nat Bool,
      roomyMap.Set 7 true = some (true, m') ∧
      m'.Keys = roomyMap.Keys ++ [7] ∧ m'.Len = roomyMap.Len + 1 ∧
      (∀ k', k' ≠ 7 → m'.Get k' = roomyMap.Get k') :=
  ⟨⟨by decide, by decide⟩, C5_set_new_key_below_capacity roomyMap 7 true (by decide) (by decide)⟩

/-- C6: on a map with capacity at least one, `Set` returns, afterwards `Get` of
the key that was set returns the value that was set, and a key that was in the
map before and is not any more is a different key and was the front key. -/
theorem C6_set_then_get (m : RingMap K V) (k : K) (v : V) (hcap : 1 ≤ m.Capacity) :
    ∃ (b : Bool) (m' : RingMap K V),
      m.Set k v = some (b, m') ∧
      m'.Get k = some v ∧
      (∀ k', k' ∈ m.Keys → k' ∉ m'.Keys → k' ≠ k ∧ m.Front.map Element.Key = some k') := by
  cases hg : m.Get k with
  | some old =>
    have hs : (m.Get k).isSome = true := by simp [hg]
    refine ⟨false, _, set_present m k v hs, ?_, ?_⟩
    · exact lookupEntry_replaceEntry_self k v _ ((lookupEntry_isSome_iff k _).1 hs)
    · intro k' hin hout
      exact absurd (by simpa [RingMap.Keys, OrderedMap.Keys, keys_replaceEntry] using hin) hout
  | none =>
    have hkn : k ∉ m.orderedMap.ll.map Prod.fst := (lookupEntry_eq_none_iff k _).1 hg
    cases hf : m.IsFull with
    | false =>
      refine ⟨true, _, set_absent_not_full m k v hg hf, ?_, ?_⟩
      · exact lookupEntry_append_self k v _ hkn
      · intro k' hin hout
        exact absurd (by simpa [RingMap.Keys, OrderedMap.Keys] using Or.inl hin) hout
    | true =>
      obtain ⟨⟨ll⟩, cap⟩ := m
      cases ll with
      | nil =>
        rw [isFull_iff] at hf
        simp only [RingMap.Capacity] at hcap
        simp at hf
        omega
      | cons p rest =>
        obtain ⟨f, fv⟩ := p
        simp only [List.map_cons, List.mem_cons, not_or] at hkn
        refine ⟨true, _, set_absent_full _ k v f fv rest hg hf rfl, ?_, ?_⟩
        · exact lookupEntry_append_self k v _ hkn.2
        · intro k' hin hout
          simp only [RingMap.Keys, OrderedMap.Keys, List.map_cons, List.mem_cons,
            List.map_append, List.map_nil, List.mem_append, List.mem_singleton, not_or] at hin hout
          rcases hin with rfl | hin
          · exact ⟨fun e => hkn.1 e.symm, rfl⟩
          · exact absurd hin hout.1

/-- C6, at a concrete map: the hypotheses of `C6_set_then_get` hold there and so does its conclusion. -/
theorem C6_set_then_get_witness :
    1 ≤ fullMap.Capacity ∧
    ∃ (b : Bool) (m' : RingMap Nat Bool),
      fullMap.Set 4 false = some (b, m') ∧
      m'.Get 4 = some false ∧
      (∀ k', k' ∈ fullMap.Keys → k' ∉ m'.Keys →
        k' ≠ 4 ∧ fullMap.Front.map Element.Key = some k') :=
  ⟨by decide, C6_set_then_get fullMap 4 false (by decide)⟩

/-- C7: `Delete` returns true exactly when the key was present; afterwards the
key is not found, the keys are the old keys with that key removed and the
others in their previous order, and every other key has the value it had. -/
theorem C7_delete (m : RingMap K V) (k : K) (hwf : WF m) :
    ((m.Delete k).1 = true ↔ (m.Get k).isSome = true) ∧
    (m.Delete k).2.Get k = none ∧
    (m.Delete k).2.Keys = m.Keys.filter (fun x => decide (x ≠ k)) ∧
    (∀ k', k' ≠ k → (m.Delete k).2.Get k' = m.Get k') := by
  have hnd : (m.orderedMap.ll.map Prod.fst).Nodup := hwf
  cases hg : m.Get k with
  | some old =>
    have hs : (m.Get k).isSome = true := by simp [hg]
    rw [delete_present m k hs]
    refine ⟨by simp, ?_, ?_, ?_⟩
    · exact lookupEntry_removeEntry_self k _ hnd
    · show (removeEntry k m.orderedMap.ll).map Prod.fst = _
      rw [keys_removeEntry, List.Nodup.erase_eq_filter hnd]
      refine List.filter_congr ?_
      intro x _
      by_cases hx : x = k <;> simp [hx]
    · intro k' hne
      exact lookupEntry_removeEntry_ne k k' _ hne
  | none =>
    rw [delete_absent m k hg]
    have hkn : k ∉ m.Keys := (lookupEntry_eq_none_iff k _).1 hg
    refine ⟨by simp, hg, ?_, fun _ _ => rfl⟩
    symm
    rw [List.filter_eq_self]
    intro a ha
    simp only [decide_eq_true_eq]
    rintro rfl
    exact hkn ha

/-- C7, at a concrete map: the hypotheses of `C7_delete` hold there and so does its conclusion. -/
theorem C7_delete_witness :
    WF fullMap ∧
    (((fullMap.Delete 2).1 = true ↔ (fullMap.Get 2).isSome = true) ∧
    (fullMap.Delete 2).2.Get 2 = none ∧
    (fullMap.Delete 2).2.Keys = fullMap.Keys.filter (fun x => decide (x ≠ 2)) ∧
    (∀ k', k' ≠ 2 → (fullMap.Delete 2).2.Get k' = fullMap.Get k')) :=
  ⟨by decide, C7_delete fullMap 2 (by decide)⟩

/-- C8: in every state reachable from `NewRingMap c` by `Set`, `Put` and
`Delete`, the keys contain no duplicate, the length is the number of keys, and
`Get` finds a key exactly when the key occurs in the keys. -/
theorem C8_reachable_consistent (c : Int) (m : RingMap K V) (h : Reachable c m) :
    m.Keys.Nodup ∧ m.Len = (m.Keys.length : Int) ∧
    (∀ k, (m.Get k).isSome = true ↔ k ∈ m.Keys) := by
  obtain ⟨ops, hr⟩ := h
  refine ⟨wf_run ops _ m (wf_new c) hr, ?_, ?_⟩
  · simp [RingMap.Len, OrderedMap.Len, RingMap.Keys, OrderedMap.Keys]
  · intro k
    exact lookupEntry_isSome_iff k _

/-- C8, at a concrete map: the hypotheses of `C8_reachable_consistent` hold there and so does its conclusion. -/
theorem C8_reachable_consistent_witness :
    Reachable 3 fullMap ∧
    (fullMap.Keys.Nodup ∧ fullMap.Len = (fullMap.Keys.length : Int) ∧
    (∀ k, (fullMap.Get k).isSome = true ↔ k ∈ fullMap.Keys)) :=
  ⟨⟨[Op.set 1 true, Op.set 2 true, Op.set 3 true], by decide⟩,
    C8_reachable_consistent 3 fullMap ⟨[Op.set 1 true, Op.set 2 true, Op.set 3 true], by decide⟩⟩

/-- C9: on the full map with keys 1, 2, 3, `Put(2, false)` deletes the front
key 1 and overwrites key 2 in place: the keys are 2, 3 and the back key is 3,
not 2. -/
theorem C9_put_existing_not_moved :
    run (NewRingMap 3) [Op.set 1 true, Op.set 2 true, Op.set 3 true] = some fullMap ∧
    ∃ m' : RingMap Nat Bool,
      fullMap.Put 2 false = some (false, m') ∧
      m'.Keys = [2, 3] ∧ m'.Back.map Element.Key = some 3 ∧
      m'.Keys.getLast? ≠ some 2 ∧ m'.Get 1 = none ∧ m'.Get 2 = some false :=
  ⟨by decide, ⟨⟨[(2, false), (3, true)]⟩, 3⟩, by decide, by decide, by decide, by decide,
    by decide, by decide⟩

/-- C10: on the full map with keys 1, 2, 3 and capacity three, `Put` of the
absent key 4 evicts nothing and leaves four keys, whereas `Set` of the same key
evicts the front key 1 and leaves the keys 2, 3, 4. -/
theorem C10_put_absent_full_differs_from_set :
    run (NewRingMap 3) [Op.set 1 true, Op.set 2 true, Op.set 3 true] = some fullMap ∧
    fullMap.IsFull = true ∧ fullMap.Get 4 = none ∧
    ∃ mp ms : RingMap Nat Bool,
      fullMap.Put 4 true = some (true, mp) ∧ fullMap.Set 4 true = some (true, ms) ∧
      mp.Keys = [1, 2, 3, 4] ∧ ms.Keys = [2, 3, 4] ∧ mp.Keys ≠ ms.Keys ∧
      mp.Capacity < mp.Len :=
  ⟨by decide, by decide, by decide, ⟨⟨[(1, true), (2, true), (3, true), (4, true)]⟩, 3⟩,
    ⟨⟨[(2, true), (3, true), (4, true)]⟩, 3⟩, by decide, by decide, by decide, by decide,
    by decide, by decide⟩

/-- C11: `Put` of a key that is already present first evicts the front entry
and then sets the pair.  When the key was not the front key the call returns
false, the new keys are the old keys without the first one (the front key is
no longer found, the length drops by one); when the key was the front key the
call returns true and the new keys are the old keys without the first one
followed by the key (length unchanged).  In both cases `Get` of the key
returns the new value. -/
theorem C11_put_existing_key (m : RingMap K V) (k : K) (v : V)
    (hk : (m.Get k).isSome = true) (hwf : WF m) :
    ∃ (f : Element K V) (rest : List K) (b : Bool) (m' : RingMap K V),
      m.Front = some f ∧ m.Keys = f.Key :: rest ∧
      m.Put k v = some (b, m') ∧ m'.Get k = some v ∧
      (k ≠ f.Key →
        b = false ∧ m'.Keys = rest ∧ m'.Len = m.Len - 1 ∧ m'.Get f.Key = none) ∧
      (k = f.Key → b = true ∧ m'.Keys = rest ++ [k] ∧ m'.Len = m.Len) := by
  obtain ⟨⟨ll⟩, cap⟩ := m
  cases ll with
  | nil => simp [RingMap.Get, OrderedMap.Get, lookupEntry] at hk
  | cons p rest =>
    obtain ⟨f, fv⟩ := p
    have hnd : (((f, fv) :: rest).map Prod.fst).Nodup := hwf
    simp only [List.map_cons, List.nodup_cons] at hnd
    have hput := put_present (⟨⟨(f, fv) :: rest⟩, cap⟩ : RingMap K V) k v f fv rest hk rfl
    by_cases hkf : k = f
    · subst hkf
      have hnone : lookupEntry k rest = none := (lookupEntry_eq_none_iff k rest).2 hnd.1
      have hset : OrderedMap.Set (⟨rest⟩ : OrderedMap K V) k v
          = (true, ⟨rest ++ [(k, v)]⟩) := by
        simp [OrderedMap.Set, OrderedMap.Get, hnone]
      rw [hset] at hput
      refine ⟨⟨k, fv⟩, rest.map Prod.fst, true, _, rfl, rfl, hput, ?_, ?_, ?_⟩
      · exact lookupEntry_append_self k v rest hnd.1
      · intro hne; exact absurd rfl hne
      · intro _
        refine ⟨rfl, ?_, ?_⟩
        · simp [RingMap.Keys, OrderedMap.Keys]
        · simp [RingMap.Len, OrderedMap.Len]
    · have hfk : ¬ f = k := fun e => hkf e.symm
      have hsome : (lookupEntry k rest).isSome = true := by
        have : (lookupEntry k ((f, fv) :: rest)).isSome = true := hk
        simpa [lookupEntry, hfk] using this
      have hset : OrderedMap.Set (⟨rest⟩ : OrderedMap K V) k v
          = (false, ⟨replaceEntry k v rest⟩) := by
        simp [OrderedMap.Set, OrderedMap.Get, hsome]
      rw [hset] at hput
      refine ⟨⟨f, fv⟩, rest.map Prod.fst, false, _, rfl, rfl, hput, ?_, ?_, ?_⟩
      · exact lookupEntry_replaceEntry_self k v rest ((lookupEntry_isSome_iff k rest).1 hsome)
      · intro _
        refine ⟨rfl, keys_replaceEntry k v rest, ?_, ?_⟩
        · simp [RingMap.Len, OrderedMap.Len, length_replaceEntry]
        · show lookupEntry f (replaceEntry k v rest) = none
          rw [lookupEntry_eq_none_iff, keys_replaceEntry]
          exact hnd.1
      · intro hne; exact absurd hne hkf

/-- C11, at a concrete map: the hypotheses of `C11_put_existing_key` hold
there and so does its conclusion. -/
theorem C11_put_existing_key_witness :
    ((fullMap.Get 2).isSome = true ∧ WF fullMap) ∧
    ∃ (f : Element Nat Bool) (rest : List Nat) (b : Bool) (m' : RingMap Nat Bool),
      fullMap.Front = some f ∧ fullMap.Keys = f.Key :: rest ∧
      fullMap.Put 2 false = some (b, m') ∧ m'.Get 2 = some false ∧
      (2 ≠ f.Key →
        b = false ∧ m'.Keys = rest ∧ m'.Len = fullMap.Len - 1 ∧ m'.Get f.Key = none) ∧
      (2 = f.Key → b = true ∧ m'.Keys = rest ++ [2] ∧ m'.Len = fullMap.Len) :=
  ⟨⟨by decide, by decide⟩, C11_put_existing_key fullMap 2 false (by decide) (by decide)⟩

/-- C12: on the full map with keys 1, 2, 3, `Put(1, false)` of the present
front key returns true, although the key was present before the call. -/
theorem C12_put_front_key_returns_true :
    run (NewRingMap 3) [Op.set 1 true, Op.set 2 true, Op.set 3 true] = some fullMap ∧
    (fullMap.Get 1).isSome = true ∧
    fullMap.Put 1 false = some (true, ⟨⟨[(2, true), (3, true), (1, false)]⟩, 3⟩) ∧
    (fullMap.Set 1 false).map Prod.fst = some false :=
  ⟨by decide, by decide, by decide, by decide⟩

/-- C13: on a new map of capacity zero, `Set` of any key does not complete: the
map counts as full, the front element is `nil`, and reading its key panics. -/
theorem C13_set_on_capacity_zero_panics (k : K) (v : V) :
    (NewRingMap 0 : RingMap K V).Get k = none ∧
    (NewRingMap 0 : RingMap K V).IsFull = true ∧
    (NewRingMap 0 : RingMap K V).Front = none ∧
    (NewRingMap 0 : RingMap K V).Set k v = none := by
  have hg : (NewRingMap 0 : RingMap K V).Get k = none := rfl
  have hf : (NewRingMap 0 : RingMap K V).IsFull = true := by
    rw [isFull_iff]; rfl
  exact ⟨hg, hf, rfl, set_absent_full_empty _ k v hg hf rfl⟩

/-- C14: for a capacity of at least one, in every state reachable by `Set`,
`Put` and `Delete`, both `Set` and `Put` return a result, and whenever either
takes its eviction branch the front element is present. -/
theorem C14_set_put_do_not_fail (c : Int) (hc : 1 ≤ c) (m : RingMap K V)
    (h : Reachable c m) (k : K) (v : V) :
    (∃ r, m.Set k v = some r) ∧ (∃ r, m.Put k v = some r) ∧
    (m.Get k = none → m.IsFull = true → ∃ e, m.Front = some e) ∧
    ((m.Get k).isSome = true → ∃ e, m.Front = some e) := by
  obtain ⟨ops, hr⟩ := h
  have hcap : m.capacity = c := capacity_run ops _ m hr
  have hcap1 : 1 ≤ m.capacity := by rw [hcap]; exact hc
  refine ⟨set_isSome m k v hcap1, put_isSome m k v, ?_, ?_⟩
  · intro _ hf
    exact front_isSome_of_ne_nil m (ne_nil_of_full m hcap1 hf)
  · intro hs
    exact front_isSome_of_ne_nil m (ne_nil_of_present m k hs)

/-- C14, at a concrete map: the hypotheses of `C14_set_put_do_not_fail` hold
there and so does its conclusion. -/
theorem C14_set_put_do_not_fail_witness :
    ((1 : Int) ≤ 3 ∧ Reachable 3 fullMap) ∧
    ((∃ r, fullMap.Set 4 true = some r) ∧ (∃ r, fullMap.Put 4 true = some r) ∧
    (fullMap.Get 4 = none → fullMap.IsFull = true → ∃ e, fullMap.Front = some e) ∧
    ((fullMap.Get 4).isSome = true → ∃ e, fullMap.Front = some e)) :=
  ⟨⟨by decide, ⟨[Op.set 1 true, Op.set 2 true, Op.set 3 true], by decide⟩⟩,
    C14_set_put_do_not_fail 3 (by decide) fullMap
      ⟨[Op.set 1 true, Op.set 2 true, Op.set 3 true], by decide⟩ 4 true⟩

/-- C15: `NewRingMap(-1)` returns a map, with capacity -1 and no entries, and
that map accepts a `Set`; construction does not fail. -/
theorem C15_negative_capacity_returns_map :
    (NewRingMap (-1) : RingMap Nat Bool) = ⟨⟨[]⟩, -1⟩ ∧
    (NewRingMap (-1) : RingMap Nat Bool).Capacity = -1 ∧
    (NewRingMap (-1) : RingMap Nat Bool).Len = 0 ∧
    (NewRingMap (-1) : RingMap Nat Bool).Set 1 true = some (true, ⟨⟨[(1, true)]⟩, -1⟩) :=
  ⟨by decide, by decide, by decide, by decide⟩

/-- C15, amended: for every negative capacity, `NewRingMap` returns an empty
map whose capacity is the given one, and that map is not full. -/
theorem C15_new_with_negative_capacity {α β : Type} (c : Int) (hc : c < 0) :
    (NewRingMap c : RingMap α β).Capacity = c ∧
    (NewRingMap c : RingMap α β).Len = 0 ∧
    (NewRingMap c : RingMap α β).Keys = [] ∧
    (NewRingMap c : RingMap α β).IsFull = false := by
  refine ⟨rfl, rfl, rfl, ?_⟩
  cases hf : (NewRingMap c : RingMap α β).IsFull with
  | false => rfl
  | true =>
    rw [isFull_iff] at hf
    simp [NewRingMap, OrderedMap.NewOrderedMap] at hf
    omega

/-- C15, amended, at the capacity -1. -/
theorem C15_new_with_negative_capacity_witness :
    ((-1 : Int) < 0) ∧
    ((NewRingMap (-1) : RingMap Nat Bool).Capacity = -1 ∧
    (NewRingMap (-1) : RingMap Nat Bool).Len = 0 ∧
    (NewRingMap (-1) : RingMap Nat Bool).Keys = [] ∧
    (NewRingMap (-1) : RingMap Nat Bool).IsFull = false) :=
  ⟨by decide, C15_new_with_negative_capacity (-1) (by decide)⟩

/-- C16: on a map without duplicate keys, `Front` and `Back` are absent exactly
when the length is zero; a present `Front` has the first key and a present
`Back` the last key, each with the value `Get` returns for that key. -/
theorem C16_front_back (m : RingMap K V) (hwf : WF m) :
    (m.Front = none ↔ m.Len = 0) ∧ (m.Back = none ↔ m.Len = 0) ∧
    (∀ e, m.Front = some e → m.Keys.head? = some e.Key ∧ m.Get e.Key = some e.Value) ∧
    (∀ e, m.Back = some e → m.Keys.getLast? = some e.Key ∧ m.Get e.Key = some e.Value) := by
  obtain ⟨⟨ll⟩, cap⟩ := m
  have hnd : (ll.map Prod.fst).Nodup := hwf
  refine ⟨?_, ?_, ?_, ?_⟩
  · cases ll with
    | nil => simp [RingMap.Front, OrderedMap.Front, RingMap.Len, OrderedMap.Len]
    | cons p rest =>
      simp only [RingMap.Front, OrderedMap.Front, RingMap.Len, OrderedMap.Len,
        List.head?_cons, List.length_cons]
      constructor
      · intro h; cases h
      · intro h; omega
  · rcases List.eq_nil_or_concat ll with rfl | ⟨init, last, hl⟩
    · simp [RingMap.Back, OrderedMap.Back, RingMap.Len, OrderedMap.Len]
    · rw [List.concat_eq_append] at hl
      subst hl
      simp only [RingMap.Back, OrderedMap.Back, RingMap.Len, OrderedMap.Len,
        List.getLast?_concat, List.length_append, List.length_singleton]
      constructor
      · intro h; cases h
      · intro h; omega
  · intro e he
    cases ll with
    | nil => simp [RingMap.Front, OrderedMap.Front] at he
    | cons p rest =>
      obtain ⟨f, fv⟩ := p
      simp only [RingMap.Front, OrderedMap.Front, List.head?_cons, Option.some.injEq] at he
      subst he
      exact ⟨rfl, by simp [RingMap.Get, OrderedMap.Get, lookupEntry]⟩
  · intro e he
    rcases List.eq_nil_or_concat ll with rfl | ⟨init, last, hl⟩
    · simp [RingMap.Back, OrderedMap.Back] at he
    · rw [List.concat_eq_append] at hl
      subst hl
      obtain ⟨l, lv⟩ := last
      simp only [RingMap.Back, OrderedMap.Back, List.getLast?_concat, Option.some.injEq] at he
      subst he
      have hl : l ∉ init.map Prod.fst := by
        simp only [List.map_append, List.map_cons, List.map_nil] at hnd
        intro hm
        exact (List.nodup_append.1 hnd).2.2 hm (List.mem_singleton_self l)
      refine ⟨?_, lookupEntry_append_self l lv init hl⟩
      simp only [RingMap.Keys, OrderedMap.Keys, List.map_append, List.map_cons, List.map_nil,
        List.getLast?_concat]

/-- C16, at a concrete map: the hypothesis of `C16_front_back` holds there and
so does its conclusion. -/
theorem C16_front_back_witness :
    WF fullMap ∧
    ((fullMap.Front = none ↔ fullMap.Len = 0) ∧ (fullMap.Back = none ↔ fullMap.Len = 0) ∧
    (∀ e, fullMap.Front = some e →
      fullMap.Keys.head? = some e.Key ∧ fullMap.Get e.Key = some e.Value) ∧
    (∀ e, fullMap.Back = some e →
      fullMap.Keys.getLast? = some e.Key ∧ fullMap.Get e.Key = some e.Value)) :=
  ⟨by decide, C16_front_back fullMap (by decide)⟩

/-- C17: on a map with capacity at least one and without duplicate keys,
`Delete` of a key followed by `Set` of that key returns, leaves the key as the
last key and `Get` of it returns the value set; when the key was present and
the length did not exceed the capacity, the new keys are the old keys with the
key moved to the end, and every other key keeps its value. -/
theorem C17_delete_then_set (m : RingMap K V) (k : K) (v : V)
    (hcap : 1 ≤ m.Capacity) (hwf : WF m) :
    ∃ (b : Bool) (m' : RingMap K V),
      (m.Delete k).2.Set k v = some (b, m') ∧
      m'.Keys.getLast? = some k ∧ m'.Get k = some v ∧
      ((m.Get k).isSome = true → m.Len ≤ m.Capacity →
        m'.Keys = m.Keys.filter (fun x => decide (x ≠ k)) ++ [k] ∧
        (∀ k', k' ≠ k → m'.Get k' = m.Get k')) := by
  have hg1 : (m.Delete k).2.Get k = none := get_delete_self m k hwf
  have hkn : k ∉ (m.Delete k).2.orderedMap.ll.map Prod.fst :=
    (lookupEntry_eq_none_iff k _).1 hg1
  have hc1 : 1 ≤ (m.Delete k).2.capacity := hcap
  cases hf : (m.Delete k).2.IsFull with
  | false =>
    refine ⟨true, _, set_absent_not_full _ k v hg1 hf, ?_, ?_, ?_⟩
    · simp only [RingMap.Keys, OrderedMap.Keys, List.map_append, List.map_cons, List.map_nil,
        List.getLast?_concat]
    · exact lookupEntry_append_self k v _ hkn
    · intro _ _
      constructor
      · have hkeys := keys_delete m k
        rw [erase_eq_filter_of_nodup k m.Keys hwf] at hkeys
        simp only [RingMap.Keys, OrderedMap.Keys, List.map_append, List.map_cons,
          List.map_nil] at hkeys ⊢
        rw [hkeys]
      · intro k' hne
        show lookupEntry k' ((m.Delete k).2.orderedMap.ll ++ [(k, v)]) = _
        rw [lookupEntry_append_ne k k' v _ hne]
        cases hg : m.Get k with
        | some old =>
          rw [delete_present m k (by simp [hg])]
          exact lookupEntry_removeEntry_ne k k' _ hne
        | none => rw [delete_absent m k hg]; rfl
  | true =>
    have hne := ne_nil_of_full _ hc1 hf
    cases hl : (m.Delete k).2.orderedMap.ll with
    | nil => exact absurd hl hne
    | cons p rest =>
      obtain ⟨f, fv⟩ := p
      rw [hl] at hkn
      simp only [List.map_cons, List.mem_cons, not_or] at hkn
      refine ⟨true, _, set_absent_full _ k v f fv rest hg1 hf hl, ?_, ?_, ?_⟩
      · simp only [RingMap.Keys, OrderedMap.Keys, List.map_append, List.map_cons, List.map_nil,
          List.getLast?_concat]
      · exact lookupEntry_append_self k v _ hkn.2
      · intro hs hle
        exfalso
        have hlen : ((removeEntry k m.orderedMap.ll).length : Int) = m.capacity := by
          have := (isFull_iff _).1 hf
          rw [delete_present m k hs] at this
          exact this
        have hmem : k ∈ m.orderedMap.ll.map Prod.fst := (lookupEntry_isSome_iff k _).1 hs
        have h2 := congrArg List.length (keys_removeEntry k m.orderedMap.ll)
        rw [List.length_erase_of_mem hmem] at h2
        simp only [List.length_map] at h2
        have hpos : 0 < m.orderedMap.ll.length := by
          cases hll : m.orderedMap.ll with
          | nil => rw [hll] at hmem; simp at hmem
          | cons q tl => simp
        simp only [RingMap.Len, OrderedMap.Len, RingMap.Capacity] at hle
        omega

/-- C17, at a concrete map: the hypotheses of `C17_delete_then_set` hold there
and so does its conclusion. -/
theorem C17_delete_then_set_witness :
    (1 ≤ fullMap.Capacity ∧ WF fullMap) ∧
    ∃ (b : Bool) (m' : RingMap Nat Bool),
      (fullMap.Delete 2).2.Set 2 false = some (b, m') ∧
      m'.Keys.getLast? = some 2 ∧ m'.Get 2 = some false ∧
      ((fullMap.Get 2).isSome = true → fullMap.Len ≤ fullMap.Capacity →
        m'.Keys = fullMap.Keys.filter (fun x => decide (x ≠ 2)) ++ [2] ∧
        (∀ k', k' ≠ 2 → m'.Get k' = fullMap.Get k')) :=
  ⟨⟨by decide, by decide⟩, C17_delete_then_set fullMap 2 false (by decide) (by decide)⟩

/-- C18: on a map without duplicate keys, `Delete` of an absent key returns
false and leaves the map unchanged, also when called a second time, and the
second of two consecutive `Delete` calls of any key returns false. -/
theorem C18_delete_absent_key (m : RingMap K V) (k : K) (hwf : WF m) :
    (m.Get k = none →
      m.Delete k = (false, m) ∧ (m.Delete k).2.Delete k = (false, m)) ∧
    ((m.Delete k).2.Delete k).1 = false := by
  constructor
  · intro hg
    have h1 := delete_absent m k hg
    rw [h1]
    exact ⟨rfl, h1⟩
  · rw [delete_absent (m.Delete k).2 k (get_delete_self m k hwf)]

/-- C18, at a concrete map: the hypothesis of `C18_delete_absent_key` holds
there and so does its conclusion. -/
theorem C18_delete_absent_key_witness :
    WF roomyMap ∧
    ((roomyMap.Get 5 = none →
      roomyMap.Delete 5 = (false, roomyMap) ∧
      (roomyMap.Delete 5).2.Delete 5 = (false, roomyMap)) ∧
    ((roomyMap.Delete 5).2.Delete 5).1 = false) :=
  ⟨by decide, C18_delete_absent_key roomyMap 5 (by decide)⟩

/-- C19: on a map without duplicate keys, for an absent key `Get` reports not
found and `GetOrDefault` returns the default; for a key stored with a value
`Get` returns that value as found and `GetOrDefault` returns it. -/
theorem C19_get_and_default (m : RingMap K V) (k : K) (d : V) (hwf : WF m) :
    (k ∉ m.Keys → m.Get k = none ∧ m.GetOrDefault k d = d) ∧
    (∀ v, (k, v) ∈ m.orderedMap.ll → m.Get k = some v ∧ m.GetOrDefault k d = v) := by
  constructor
  · intro hk
    have hg : m.Get k = none := (lookupEntry_eq_none_iff k _).2 hk
    have hg2 : m.orderedMap.Get k = none := hg
    exact ⟨hg, by simp [RingMap.GetOrDefault, OrderedMap.GetOrDefault, hg2]⟩
  · intro v hv
    have hg : m.Get k = some v := lookupEntry_of_mem k v _ hwf hv
    have hg2 : m.orderedMap.Get k = some v := hg
    exact ⟨hg, by simp [RingMap.GetOrDefault, OrderedMap.GetOrDefault, hg2]⟩

/-- C19, at a concrete map: the hypothesis of `C19_get_and_default` holds
there and so does its conclusion. -/
theorem C19_get_and_default_witness :
    WF roomyMap ∧
    ((2 ∉ roomyMap.Keys → roomyMap.Get 2 = none ∧ roomyMap.GetOrDefault 2 false = false) ∧
    (∀ v, (2, v) ∈ roomyMap.orderedMap.ll →
      roomyMap.Get 2 = some v ∧ roomyMap.GetOrDefault 2 false = v)) :=
  ⟨by decide, C19_get_and_default roomyMap 2 false (by decide)⟩

/-- C20: `NewRingMap c` is empty (length zero, no keys, no front, no back) and
has capacity `c`, and the map returned by any sequence of `Set`, `Put` and
`Delete` calls on it still has capacity `c`. -/
theorem C20_new_map_and_capacity (c : Int) (ops : List (Op K V)) (m : RingMap K V)
    (hr : run (NewRingMap c) ops = some m) :
    (NewRingMap c : RingMap K V).Len = 0 ∧
    (NewRingMap c : RingMap K V).Keys = [] ∧
    (NewRingMap c : RingMap K V).Front = none ∧
    (NewRingMap c : RingMap K V).Back = none ∧
    (NewRingMap c : RingMap K V).Capacity = c ∧
    m.Capacity = c := by
  refine ⟨rfl, rfl, rfl, rfl, rfl, ?_⟩
  exact capacity_run ops _ m hr

/-- C20, at a concrete run: the hypothesis of `C20_new_map_and_capacity` holds
there and so does its conclusion. -/
theorem C20_new_map_and_capacity_witness :
    run (NewRingMap 3) [Op.set 1 true, Op.set 2 true, Op.set 3 true] = some fullMap ∧
    ((NewRingMap 3 : RingMap Nat Bool).Len = 0 ∧
    (NewRingMap 3 : RingMap Nat Bool).Keys = [] ∧
    (NewRingMap 3 : RingMap Nat Bool).Front = none ∧
    (NewRingMap 3 : RingMap Nat Bool).Back = none ∧
    (NewRingMap 3 : RingMap Nat Bool).Capacity = 3 ∧
    fullMap.Capacity = 3) :=
  ⟨by decide, C20_new_map_and_capacity 3 [Op.set 1 true, Op.set 2 true, Op.set 3 true]
    fullMap (by decide)⟩

/-- C21: for a capacity of at least one, every sequence of `Set` and `Delete`
calls (no `Put`) on a new map returns a map, and every map so reached has a
length between zero and its capacity. -/
theorem C21_set_delete_within_capacity (c : Int) (hc : 1 ≤ c) (ops : List (Op K V))
    (hnp : ∀ op, op ∈ ops → op.isPut = false) :
    (∃ m : RingMap K V, run (NewRingMap c) ops = some m) ∧
    (∀ m : RingMap K V, run (NewRingMap c) ops = some m →
      0 ≤ m.Len ∧ m.Len ≤ m.Capacity ∧ m.Capacity = c) := by
  have hlen0 : (NewRingMap c : RingMap K V).Len ≤ (NewRingMap c : RingMap K V).capacity := by
    show ((0 : Nat) : Int) ≤ c
    omega
  obtain ⟨m', hrun, hcap, hle⟩ := run_set_delete_bounded ops (NewRingMap c) hc hlen0 hnp
  refine ⟨⟨m', hrun⟩, ?_⟩
  intro m hm
  rw [hrun] at hm
  cases hm
  refine ⟨?_, hle, hcap⟩
  simp [RingMap.Len, OrderedMap.Len]

/-- C21, at a concrete run: the hypotheses of `C21_set_delete_within_capacity`
hold there and so does its conclusion. -/
theorem C21_set_delete_within_capacity_witness :
    ((1 : Int) ≤ 2 ∧
      ∀ op, op ∈ ([Op.set 1 true, Op.set 2 true, Op.delete 1, Op.set 3 true,
        Op.set 4 true] : List (Op Nat Bool)) → op.isPut = false) ∧
    ((∃ m : RingMap Nat Bool, run (NewRingMap 2) [Op.set 1 true, Op.set 2 true,
        Op.delete 1, Op.set 3 true, Op.set 4 true] = some m) ∧
    (∀ m : RingMap Nat Bool, run (NewRingMap 2) [Op.set 1 true, Op.set 2 true,
        Op.delete 1, Op.set 3 true, Op.set 4 true] = some m →
      0 ≤ m.Len ∧ m.Len ≤ m.Capacity ∧ m.Capacity = 2)) :=
  ⟨⟨by decide, by decide⟩,
    C21_set_delete_within_capacity 2 (by decide) [Op.set 1 true, Op.set 2 true,
      Op.delete 1, Op.set 3 true, Op.set 4 true] (by decide)⟩

/-- C22: on a map whose length exceeds its capacity, `IsFull` is false, `Set`
of an absent key returns true, evicts nothing and appends the key, so the
length grows by exactly one and still exceeds the capacity; and `Set` of any
key returns a map whose length still exceeds the capacity. -/
theorem C22_set_above_capacity (m : RingMap K V) (k : K) (v : V)
    (hover : m.Capacity < m.Len) (hk : m.Get k = none) :
    m.IsFull = false ∧
    (∃ m' : RingMap K V,
      m.Set k v = some (true, m') ∧ m'.Keys = m.Keys ++ [k] ∧
      m'.Len = m.Len + 1 ∧ m'.Capacity < m'.Len ∧
      (∀ k', k' ≠ k → m'.Get k' = m.Get k')) ∧
    (∀ (k2 : K) (v2 : V), ∃ (b : Bool) (m2 : RingMap K V),
      m.Set k2 v2 = some (b, m2) ∧ m.Len ≤ m2.Len ∧ m2.Capacity < m2.Len) := by
  simp only [RingMap.Capacity, RingMap.Len, OrderedMap.Len] at hover
  have hf : m.IsFull = false := by
    cases h : m.IsFull with
    | false => rfl
    | true =>
      rw [isFull_iff] at h
      omega
  refine ⟨hf, ⟨_, set_absent_not_full m k v hk hf, ?_, ?_, ?_, ?_⟩, ?_⟩
  · simp [RingMap.Keys, OrderedMap.Keys]
  · simp [RingMap.Len, OrderedMap.Len]
  · simp only [RingMap.Capacity, RingMap.Len, OrderedMap.Len, List.length_append,
      List.length_singleton, Nat.cast_add, Nat.cast_one]
    omega
  · intro k' hne
    exact lookupEntry_append_ne k k' v _ hne
  · intro k2 v2
    cases hg : m.Get k2 with
    | some old =>
      refine ⟨false, _, set_present m k2 v2 (by simp [hg]), ?_, ?_⟩
      · simp [RingMap.Len, OrderedMap.Len, length_replaceEntry]
      · simp only [RingMap.Capacity, RingMap.Len, OrderedMap.Len, length_replaceEntry]
        exact hover
    | none =>
      refine ⟨true, _, set_absent_not_full m k2 v2 hg hf, ?_, ?_⟩
      · simp [RingMap.Len, OrderedMap.Len]
      · simp only [RingMap.Capacity, RingMap.Len, OrderedMap.Len, List.length_append,
          List.length_singleton, Nat.cast_add, Nat.cast_one]
        omega

/-- C22, at a concrete map reached by `Put` of an absent key on a full map:
the hypotheses of `C22_set_above_capacity` hold there and so does its
conclusion. -/
theorem C22_set_above_capacity_witness :
    (run (NewRingMap 3) [Op.set 1 true, Op.set 2 true, Op.set 3 true, Op.put 4 true]
        = some overfullMap ∧
      overfullMap.Capacity < overfullMap.Len ∧ overfullMap.Get 5 = none) ∧
    (overfullMap.IsFull = false ∧
    (∃ m' : RingMap Nat Bool,
      overfullMap.Set 5 true = some (true, m') ∧ m'.Keys = overfullMap.Keys ++ [5] ∧
      m'.Len = overfullMap.Len + 1 ∧ m'.Capacity < m'.Len ∧
      (∀ k', k' ≠ 5 → m'.Get k' = overfullMap.Get k')) ∧
    (∀ (k2 : Nat) (v2 : Bool), ∃ (b : Bool) (m2 : RingMap Nat Bool),
      overfullMap.Set k2 v2 = some (b, m2) ∧ overfullMap.Len ≤ m2.Len ∧
      m2.Capacity < m2.Len)) :=
  ⟨⟨by decide, by decide, by decide⟩,
    C22_set_above_capacity overfullMap 5 true (by decide) (by decide)⟩

end Ringmap
